import Mathlib

/-!
Verification development for the TruthMark watermark SDK
(`sdk/embedder.py`, `sdk/detector.py`).

The pure data pipeline of the SDK is shallowly embedded here:

* bytes are `Nat` values (meaningful bytes are `< 256`);
* the Y-channel of an image is modelled at the DCT-coefficient level: a
  `YImage` maps an embedding site `(block_y, block_x, coef_y, coef_x)` to the
  forward-DCT coefficient of that block at that position, as a rational.
  The external `cv2` colour conversion and 8x8 DCT transform are not
  repository code; per the spec's data model (`DCT⁻¹(DCT(x)) = x`, exact
  JPEG-normalised transform) they are treated as an exact change of
  representation, so both the embedder and the detector act on this plane;
* the `core` package (`core.crypto`, `core.embedder`, `core.extractor`,
  `core.payload`, `core.config`, `core.error_correction`) is imported by the
  SDK but is not part of the source tree; those components are modelled from
  the spec (each such definition carries a `Modelled from the spec:` note);
* Python exceptions are modelled with `Option`: `none` is a raised/caught
  failure;
* JSON payload values are modelled as strings (`json` is an external
  library); a payload is an ordered association list of key/value strings,
  mirroring `json.dumps` insertion-order serialisation.
-/

namespace TruthMark

/-- An embedding site `(block_y, block_x, coef_y, coef_x)`, as produced by
`WatermarkEmbedder._select_embedding_locations` and consumed by
`TruthMarkDetector._extract_bits_from_dct`. -/
abbrev Site : Type := Nat × Nat × Nat × Nat

/-- The Y channel of an image, viewed through the exact 8x8 block DCT: the
value at a site is the forward-DCT coefficient of the site's block at the
site's coefficient position. -/
abbrev YImage : Type := Site → ℚ

/-- A saliency map (per-pixel importance in [0,1]). -/
abbrev Saliency : Type := Nat → Nat → ℚ

/-- Payload fields: an ordered association list of key/value strings. -/
abbrev Fields : Type := List (List Char × List Char)

/-! ## Bit codec

`Modelled from the spec:` the bit packing layer (`unpack_bits_msb_first` on
embed, `WatermarkExtractor._bits_to_bytes` on extract) lives in the `core`
package, which is not in the source tree.  Spec §4.1: pack a sequence of bits
into bytes MSB-first within each byte; unpack is the inverse. -/

/-- One byte as its 8 bits, MSB first. -/
def byte_to_bits (b : Nat) : List Nat :=
  [b / 128 % 2, b / 64 % 2, b / 32 % 2, b / 16 % 2,
   b / 8 % 2, b / 4 % 2, b / 2 % 2, b % 2]

/-- A byte string as its bit string, MSB-first within each byte. -/
def bytes_to_bits : List Nat → List Nat
  | [] => []
  | b :: bs => byte_to_bits b ++ bytes_to_bits bs

/-- Pack a bit string into bytes, MSB-first within each byte; an incomplete
trailing group is dropped. -/
def bits_to_bytes : List Nat → List Nat
  | b7 :: b6 :: b5 :: b4 :: b3 :: b2 :: b1 :: b0 :: rest =>
      (b7 * 128 + b6 * 64 + b5 * 32 + b4 * 16 + b3 * 8 + b2 * 4 + b1 * 2 + b0)
        :: bits_to_bytes rest
  | _ => []

/-! ## Crypto

`Modelled from the spec:` `core.crypto.CryptoEngine` is not in the source
tree.  Spec §4.3: an authenticated symmetric cipher,
`encrypt(key, plaintext) → (ciphertext, tag32)` with
`|ciphertext| = |plaintext|` and `|tag32| = 32`; `decrypt` returns the
plaintext when the 32-byte tag verifies and fails otherwise; the nonce is
derived deterministically from the key, so encryption is a deterministic
function of `(key, plaintext)`.  The concrete keystream and tag functions
below are a model of that interface; no claim depends on their
cryptographic strength. -/

/-- Deterministic key digest used by the modelled keystream and tag. -/
def key_sum (key : List Nat) : Nat :=
  key.foldl (fun a b => a + b) 0

/-- Modelled deterministic keystream byte `i` derived from the key. -/
def keystream (key : List Nat) (i : Nat) : Nat :=
  (key_sum key + 7 * i + 11) % 256

/-- Stream-encrypt from byte index `i` (ciphertext has plaintext length). -/
def enc_from (key : List Nat) : Nat → List Nat → List Nat
  | _, [] => []
  | i, p :: ps => (p + keystream key i) % 256 :: enc_from key (i + 1) ps

/-- Stream-decrypt from byte index `i`. -/
def dec_from (key : List Nat) : Nat → List Nat → List Nat
  | _, [] => []
  | i, c :: cs => (c + (256 - keystream key i)) % 256 :: dec_from key (i + 1) cs

/-- Rolling digest of a ciphertext, for the modelled tag. -/
def ct_fold (ct : List Nat) : Nat :=
  ct.foldl (fun a b => (a * 31 + b) % 256) 7

/-- The modelled 32-byte authentication tag of a ciphertext under a key. -/
def tag_of (key ct : List Nat) : List Nat :=
  (key_sum key + ct_fold ct) % 256
    :: ((key_sum key + ct_fold ct) % 256 + 1) % 256
    :: List.replicate 30 (((key_sum key + ct_fold ct) % 256 + 2) % 256)

/-- `encrypt(key, plaintext) → (ciphertext, tag32)` (spec §4.3). -/
def crypto_encrypt (key pt : List Nat) : List Nat × List Nat :=
  (enc_from key 0 pt, tag_of key (enc_from key 0 pt))

/-- `decrypt(key, ciphertext, tag)`: verifies the tag, then decrypts;
`none` models `CryptoAuthFail`. -/
def crypto_decrypt (key ct tag : List Nat) : Option (List Nat) :=
  if tag = tag_of key ct then some (dec_from key 0 ct) else none

/-! ## Error correction

`Modelled from the spec:` `core.error_correction.ErrorCorrection` is not in
the source tree.  Spec §4.2: `encode` appends `K` parity symbols and
`decode(bytes) → (bytes, errors_corrected)` reverses this, failing when the
parity cannot be reconciled.  The Reed-Solomon per-255-byte-block structure
and the error-correcting capability are not modelled (no claim exercises
them); the model appends `K` checksum symbols that `decode` verifies and
strips, reporting `0` corrected errors on the clean channel. -/

/-- `K` parity symbols of a byte string. -/
def ecc_parity (K : Nat) (xs : List Nat) : List Nat :=
  List.replicate K ((xs.foldl (fun a b => a + b) 0) % 256)

/-- `ErrorCorrection.encode`: append `K` parity symbols. -/
def ecc_encode (K : Nat) (xs : List Nat) : List Nat :=
  xs ++ ecc_parity K xs

/-- `ErrorCorrection.decode`: verify and strip the parity symbols, returning
the data and the number of errors corrected; `none` models
`EccUnrecoverable`. -/
def ecc_decode (K : Nat) (ys : List Nat) : Option (List Nat × Nat) :=
  if K ≤ ys.length then
    let d := ys.take (ys.length - K)
    if ys.drop (ys.length - K) = ecc_parity K d then some (d, 0) else none
  else none

/-! ## Canonical JSON payload

The SDK embedder serialises the payload dict with
`json.dumps(payload_dict, separators=(',', ':'))` (embedder.py:236) and the
detector parses it back with `json.loads` (detector.py:235).  The `json`
module is an external library; it is modelled here for string-valued fields
without escape sequences: `dumps` renders the pairs in list (insertion)
order with the compact separators, `loads` is a recursive-descent parser for
exactly that shape. -/

/-- The double-quote character. -/
def qc : Char := Char.ofNat 34

/-- The opening-brace character. -/
def lb : Char := Char.ofNat 123

/-- The closing-brace character. -/
def rb : Char := Char.ofNat 125

/-- The colon separator. -/
def cl : Char := ':'

/-- The comma separator. -/
def cm : Char := ','

/-- Render one `"key":"value"` pair. -/
def render_field (p : List Char × List Char) : List Char :=
  qc :: p.1 ++ qc :: cl :: qc :: p.2 ++ [qc]

/-- The comma-joined body of a JSON object. -/
def dumps_body : Fields → List Char
  | [] => []
  | [p] => render_field p
  | p :: ps => render_field p ++ cm :: dumps_body ps

/-- `json.dumps(fields, separators=(',', ':'))`: compact JSON in insertion
order. -/
def dumps (fs : Fields) : List Char :=
  lb :: dumps_body fs ++ [rb]

/-- Read a double-quoted string, returning its contents and the rest of the
input. -/
def read_quoted : List Char → Option (List Char × List Char)
  | c :: rest =>
      if c = qc then
        match rest.dropWhile (fun x => x != qc) with
        | d :: rest' =>
            if d = qc then some (rest.takeWhile (fun x => x != qc), rest') else none
        | [] => none
      else none
  | [] => none

/-- Read one `"key":"value"` pair. -/
def read_pair (cs : List Char) : Option ((List Char × List Char) × List Char) :=
  match read_quoted cs with
  | none => none
  | some (k, r1) =>
      match r1 with
      | c :: r2 =>
          if c = cl then
            match read_quoted r2 with
            | some (v, r3) => some ((k, v), r3)
            | none => none
          else none
      | [] => none

/-- Read a comma-separated sequence of pairs (fuelled recursion). -/
def read_pairs : Nat → List Char → Option (Fields × List Char)
  | 0, _ => none
  | fuel + 1, cs =>
      match read_pair cs with
      | none => none
      | some (p, r) =>
          match r with
          | c :: r2 =>
              if c = cm then
                match read_pairs fuel r2 with
                | some (ps, r3) => some (p :: ps, r3)
                | none => none
              else some ([p], r)
          | [] => some ([p], [])

/-- `json.loads` on the object shape produced by `dumps`; `none` models a
parse error. -/
def loads : List Char → Option Fields
  | c :: rest =>
      if c = lb then
        if rest = [rb] then some []
        else
          match read_pairs rest.length rest with
          | some (ps, r) => if r = [rb] then some ps else none
          | none => none
      else none
  | [] => none

/-- UTF-8 encoding of the payload text, modelled on the code-point list
(faithful for the one-byte range; the multi-byte encoder is external). -/
def utf8_bytes (cs : List Char) : List Nat :=
  cs.map Char.toNat

/-- UTF-8 decoding back to characters. -/
def bytes_to_chars (bs : List Nat) : List Char :=
  bs.map Char.ofNat

/-! ## Site selection

`Modelled from the spec:` `WatermarkEmbedder._select_embedding_locations`
lives in `core.embedder`, outside the source tree.  Spec §4.6: a
deterministic ordered duplicate-free list of `(block_y, block_x, coef_y,
coef_x)` sites that is a pure function of `(H, W, n_bits)` — the saliency
argument must not influence it — drawing the coefficient positions from the
fixed 15-element mid-frequency set (zig-zag positions 6..20) and taking the
first `n_bits` elements of a fixed global ordering of the `15·B` pairs.  The
fixed global pseudorandom permutation is modelled as the identity ordering;
no claim depends on the permutation's values. -/

/-- The fixed mid-frequency coefficient set `M`: zig-zag positions 6..20 of
the 8x8 block (15 positions). -/
def mid_freq_coefs : List (Nat × Nat) :=
  [(0, 3), (1, 2), (2, 1), (3, 0), (4, 0), (3, 1), (2, 2), (1, 3),
   (0, 4), (0, 5), (1, 4), (2, 3), (3, 2), (4, 1), (5, 0)]

/-- The fixed global ordering of all `(block, coefficient)` sites of an
`H × W` image. -/
def all_sites (h w : Nat) : List Site :=
  List.range (h / 8) ×ˢ (List.range (w / 8) ×ˢ mid_freq_coefs)

/-- `WatermarkEmbedder._select_embedding_locations(height, width, bits_needed,
saliency_map, block_size=8)`: the first `n` sites of the fixed global
ordering; the saliency map is ignored (spec §4.6). -/
def select_embedding_locations (h w n : Nat) (_saliency_map : Option Saliency) :
    List Site :=
  all_sites h w |>.take n

/-! ## DCT codec -/

/-- `TruthMarkDetector._extract_bits_from_dct` (detector.py:526-560): one bit
per location; the bit is `1` when the block's forward-DCT coefficient at the
location is positive and `0` otherwise. -/
def extract_bits_from_dct (channel : YImage) (locations : List Site) : List Nat :=
  locations.map (fun loc => if 0 < channel loc then 1 else 0)

/-- `Modelled from the spec:` the bit-writing half of the DCT codec
(`core.embedder.WatermarkEmbedder.embed`, outside the source tree).  Spec
§4.7: each selected coefficient is replaced by `+strength` for bit 1 and
`-strength` for bit 0 (the optional saliency modulation of the strength is
not modelled; no claim exercises it); unselected coefficients are
untouched. -/
def core_embed_plane (img : YImage) (sites : List Site) (bits : List Nat)
    (strength : ℚ) : YImage :=
  fun s =>
    match (sites.zip bits).lookup s with
    | some b => if b = 1 then strength else -strength
    | none => img s

/-! ## Configuration

`Modelled from the spec:` `core.config.TruthMarkConfig` is outside the
source tree; only the options the SDK reads are modelled (spec §6). -/

/-- The configuration options read by the SDK embedder and detector. -/
structure TruthMarkConfig where
  strength : ℚ
  target_psnr : ℚ
  adaptive_strength : Bool
  use_error_correction : Bool
  ecc_symbols : Nat
  use_ai_saliency : Bool
  saliency_method : String
deriving DecidableEq

/-- `TruthMarkConfig.get_ecc_symbols` (`Modelled from the spec:` the config
accessor is outside the source tree; spec §6 fixes it as the `ecc_symbols`
option). -/
def TruthMarkConfig.get_ecc_symbols (c : TruthMarkConfig) : Nat :=
  c.ecc_symbols

/-- The uniform saliency map used when no detector output is available
(spec §4.5). -/
def uniform_saliency : Saliency := fun _ _ => 1 / 2

/-! ## SDK embedder (`sdk/embedder.py`) -/

/-- The byte string `TruthMarkEmbedder.embed` hands to the bit/DCT layer
(embedder.py:236-248): serialise, optionally ECC-encode, encrypt, and append
the 32-byte integrity tag. -/
def embed_data_bytes (fs : Fields) (key : List Nat) (eccOn : Bool) (K : Nat) :
    List Nat :=
  let payload_bytes := utf8_bytes (dumps fs)
  let payload_bytes := if eccOn then ecc_encode K payload_bytes else payload_bytes
  let pr := crypto_encrypt key payload_bytes
  pr.1 ++ pr.2

/-- Total embedded size in bytes (ciphertext plus 32-byte tag). -/
def embed_total_size (fs : Fields) (key : List Nat) (cfg : TruthMarkConfig) : Nat :=
  (embed_data_bytes fs key cfg.use_error_correction cfg.get_ecc_symbols).length

/-! ### Adaptive strength (`TruthMarkEmbedder._find_optimal_strength`,
embedder.py:497-547)

The per-strength trial embedding and PSNR measurement happen in the external
core embedder; they are abstracted as a function `psnrOf` from the trial
strength to the measured PSNR (`none` models a trial embedding that raises,
which the source skips). -/

/-- The loop of `_find_optimal_strength`: walk the strength ladder, track the
best |PSNR - target| seen so far (strict improvement only, so ties keep the
earlier, lower strength), and return early on the first strength within the
0.5 dB tolerance. -/
def fos_loop (target : ℚ) (psnrOf : ℚ → Option ℚ) :
    List ℚ → ℚ → Option ℚ → ℚ
  | [], best, _ => best
  | s :: rest, best, bestDiff =>
      match psnrOf s with
      | none => fos_loop target psnrOf rest best bestDiff
      | some p =>
          let d := |p - target|
          let keep : Bool := match bestDiff with
            | none => true
            | some bd => decide (d < bd)
          let best' := if keep then s else best
          let bestDiff' := if keep then some d else bestDiff
          if d ≤ 1 / 2 then s else fos_loop target psnrOf rest best' bestDiff'

/-- The fixed strength ladder `{0.7, 0.85, 1.0, 1.15, 1.3} · base`
(embedder.py:508-514). -/
def strength_ladder (base : ℚ) : List ℚ :=
  [base * (7 / 10), base * (85 / 100), base, base * (115 / 100), base * (13 / 10)]

/-- `TruthMarkEmbedder._find_optimal_strength`. -/
def find_optimal_strength (base target : ℚ) (psnrOf : ℚ → Option ℚ) : ℚ :=
  fos_loop target psnrOf (strength_ladder base) base none

/-- The watermarked DCT plane `TruthMarkEmbedder.embed` produces: the
encoded payload bits written at the selected sites with the strength the
core embedder was constructed with (`config.strength`, embedder.py:162-166). -/
def watermarked_plane (img : YImage) (h w : Nat) (fs : Fields) (key : List Nat)
    (cfg : TruthMarkConfig) : YImage :=
  let data := embed_data_bytes fs key cfg.use_error_correction cfg.get_ecc_symbols
  let bits := bytes_to_bits data
  let sal : Option Saliency :=
    if cfg.use_ai_saliency then some uniform_saliency else none
  core_embed_plane img (select_embedding_locations h w bits.length sal) bits
    cfg.strength

/-- `TruthMarkEmbedder.embed` (embedder.py:168-323), pixel pipeline only:
returns the watermarked plane and the strength actually used, or `none` when
the payload exceeds the image capacity (`PayloadTooLarge`).  Note
embedder.py:255-263 computes `current_strength` from the adaptive search but
never passes it on: the core embedder instance was constructed with
`config.strength` and `embed` is called without a strength argument, so the
adaptive result is a dead store and the base strength is always used. -/
def sdk_embed (img : YImage) (h w : Nat) (fs : Fields) (key : List Nat)
    (cfg : TruthMarkConfig) (psnrOf : ℚ → Option ℚ) : Option (YImage × ℚ) :=
  let data := embed_data_bytes fs key cfg.use_error_correction cfg.get_ecc_symbols
  let bits := bytes_to_bits data
  let _current_strength : ℚ :=
    if cfg.adaptive_strength then
      find_optimal_strength cfg.strength cfg.target_psnr psnrOf
    else cfg.strength
  if bits.length > h / 8 * (w / 8) * 15 then none
  else some (watermarked_plane img h w fs key cfg, cfg.strength)

/-! ## SDK detector (`sdk/detector.py`) -/

/-- `DetectResult` (detector.py:20-41), restricted to the fields the claims
touch. -/
structure DetectResult where
  detected : Bool
  confidence : ℚ
  payload : Option Fields
  error_message : Option String
deriving DecidableEq

/-- The result built on a successful trial (detector.py:237-243 and
`_build_result`): detected, confidence 1.0, the parsed payload. -/
def build_result (p : Fields) : DetectResult :=
  { detected := true, confidence := 1, payload := some p, error_message := none }

/-- The ladder-exhausted result (detector.py:253-260). -/
def not_detected_result : DetectResult :=
  { detected := false, confidence := 0, payload := none,
    error_message := some "No watermark detected or decryption failed" }

/-- The keyless result (detector.py:170-175). -/
def no_key_result : DetectResult :=
  { detected := false, confidence := 0, payload := none,
    error_message := some "No decryption key provided. Cannot detect watermark without key." }

/-- Python `range(start, stop, step)` for positive step. -/
def python_range (start stop step : Nat) : List Nat :=
  List.range' start ((stop - start + step - 1) / step) step

/-- The candidate total embedded sizes the detector tries (detector.py:186):
`list(range(100, 500, 4)) + list(range(500, 1000, 20)) +
list(range(1000, 2000, 50))`. -/
def embedded_sizes_to_try : List Nat :=
  python_range 100 500 4 ++ python_range 500 1000 20 ++ python_range 1000 2000 50

/-- The tail of one length trial (detector.py:216-235): split the last 32
bytes off as the integrity tag, decrypt, ECC-decode when enabled, and parse
the JSON; `none` models any caught trial failure. -/
def decode_pipeline (key : List Nat) (eccOn : Bool) (K : Nat) (data : List Nat) :
    Option Fields :=
  let ct := data.take (data.length - 32)
  let tag := data.drop (data.length - 32)
  match crypto_decrypt key ct tag with
  | none => none
  | some dec =>
      match (if eccOn then (ecc_decode K dec).map (fun x => x.1) else some dec) with
      | none => none
      | some plain => loads (bytes_to_chars plain)

/-- One trial of the length-search loop body (detector.py:188-251) at
candidate total size `S` bytes: capacity check, site regeneration with
`saliency_map=None`, bit extraction, packing, and the decode pipeline. -/
def trial_at (img : YImage) (h w : Nat) (key : List Nat) (cfg : TruthMarkConfig)
    (S : Nat) : Option Fields :=
  let bits_needed := S * 8
  let max_bits := h / 8 * (w / 8) * 15
  if bits_needed > max_bits then none
  else
    let locs := select_embedding_locations h w bits_needed none
    let ebits := extract_bits_from_dct img (locs.take bits_needed)
    let data := bits_to_bytes ebits
    if data.length < 32 then none
    else decode_pipeline key cfg.use_error_correction cfg.get_ecc_symbols data

/-- The length-search loop: first successful trial wins; exhaustion yields
the `NotDetected` value. -/
def detect_loop (trial : Nat → Option Fields) : List Nat → DetectResult
  | [] => not_detected_result
  | S :: rest =>
      match trial S with
      | some p => build_result p
      | none => detect_loop trial rest

/-- `TruthMarkDetector.detect` after key resolution (detector.py:177-260). -/
def detect_from (img : YImage) (h w : Nat) (key : List Nat)
    (cfg : TruthMarkConfig) : DetectResult :=
  detect_loop (trial_at img h w key cfg) embedded_sizes_to_try

/-- Python truthiness of an optional key string. -/
def py_truthy : Option (List Nat) → Bool
  | none => false
  | some k => !k.isEmpty

/-- `TruthMarkDetector.detect` including the constructor's and the call's
key handling (detector.py:135-139 and 165-175): the override key replaces
the instance crypto only when truthy and different from the instance key;
without any crypto the keyless result is returned before any extraction. -/
def detect_top (instance_key override_key : Option (List Nat)) (img : YImage)
    (h w : Nat) (cfg : TruthMarkConfig) : DetectResult :=
  let base := if py_truthy instance_key then instance_key else none
  let crypto :=
    if py_truthy override_key ∧ override_key ≠ instance_key then override_key
    else base
  match crypto with
  | none => no_key_result
  | some k => detect_from img h w k cfg

/-! ## Copyright verification (`TruthMarkDetector.verify_copyright`,
detector.py:395-450) -/

/-- Python `x or y` on an optional string: `y` when `x` is missing or
empty. -/
def py_or (x : Option (List Char)) (y : List Char) : List Char :=
  match x with
  | some v => if v = [] then y else v
  | none => y

/-- The key `"owner"`. -/
def owner_key : List Char := ['o', 'w', 'n', 'e', 'r']

/-- The key `"author"`. -/
def author_key : List Char := ['a', 'u', 't', 'h', 'o', 'r']

/-- The key `"copyright"`. -/
def copyright_key : List Char := ['c', 'o', 'p', 'y', 'r', 'i', 'g', 'h', 't']

/-- The owner string `verify_copyright` checks against
(detector.py:432-438): the first non-empty of the payload's `owner`,
`author`, `copyright` fields, defaulting to the empty string. -/
def owner_of (payload : Option Fields) : List Char :=
  match payload with
  | none => []
  | some fs =>
      py_or (fs.lookup owner_key)
        (py_or (fs.lookup author_key) (py_or (fs.lookup copyright_key) []))

/-- Lower-case a string, as Python `str.lower` on the modelled range. -/
def to_lower (cs : List Char) : List Char :=
  cs.map Char.toLower

/-- Whether `pat` is a prefix of `s`. -/
def begins : List Char → List Char → Bool
  | [], _ => true
  | _ :: _, [] => false
  | x :: xs, y :: ys => x == y && begins xs ys

/-- Python substring containment `needle in hay`. -/
def occurs_in (needle : List Char) : List Char → Bool
  | [] => begins needle []
  | c :: cs => begins needle (c :: cs) || occurs_in needle cs

/-- The verification result dict of `verify_copyright`, restricted to the
fields the claims touch. -/
structure VerifyResult where
  verified : Bool
  actual_owner : List Char
  confidence : ℚ
deriving DecidableEq

/-- `TruthMarkDetector.verify_copyright` (detector.py:395-450). -/
def verify_copyright (instance_key : Option (List Nat)) (img : YImage)
    (h w : Nat) (expected_owner : List Char) (key : List Nat)
    (cfg : TruthMarkConfig) : VerifyResult :=
  let r := detect_top instance_key (some key) img h w cfg
  if r.detected = false then
    { verified := false, actual_owner := [], confidence := 0 }
  else
    let actual := owner_of r.payload
    { verified := occurs_in (to_lower expected_owner) (to_lower actual),
      actual_owner := actual, confidence := r.confidence }

/-! ## Concrete instances used by counterexamples and witnesses -/

/-- The all-zero DCT plane (a flat cover image). -/
def img_zero : YImage := fun _ => 0

/-- A balanced-preset-style configuration: ECC on with 32 symbols, no AI
saliency, base strength 15, target PSNR 42. -/
def cfg_a : TruthMarkConfig :=
  { strength := 15, target_psnr := 42, adaptive_strength := false,
    use_error_correction := true, ecc_symbols := 32, use_ai_saliency := false,
    saliency_method := "" }

/-- `cfg_a` with different saliency settings only. -/
def cfg_b : TruthMarkConfig :=
  { strength := 15, target_psnr := 42, adaptive_strength := false,
    use_error_correction := true, ecc_symbols := 32, use_ai_saliency := true,
    saliency_method := "spectral" }

/-- `cfg_a` with the adaptive-strength ladder enabled. -/
def cfg_adaptive : TruthMarkConfig :=
  { strength := 15, target_psnr := 42, adaptive_strength := true,
    use_error_correction := true, ecc_symbols := 32, use_ai_saliency := false,
    saliency_method := "" }

/-- The empty payload `{}` (two JSON bytes). -/
def cx_fields : Fields := []

/-- A concrete key. -/
def cx_key : List Nat := [3]

/-- The embedded byte string of the empty payload under `cx_key`/`cfg_a`:
2 JSON bytes + 32 ECC parity bytes, encrypted, plus the 32-byte tag —
66 bytes in total, which is NOT on the detector's size ladder. -/
def cx_data : List Nat := embed_data_bytes cx_fields cx_key true 32

/-- The watermarked plane of the off-ladder embedding over a 64x64 cover. -/
def cx_plane : YImage := watermarked_plane img_zero 64 64 cx_fields cx_key cfg_a

/-- A 36-character payload whose embedded size is exactly 100 bytes
(36 JSON bytes + 32 ECC parity bytes + 32-byte tag), the first ladder
entry. -/
def w1_fields : Fields := [(['c'], List.replicate 28 'a')]

/-- A concrete key for the round-trip witness. -/
def w1_key : List Nat := [5]

/-- A two-site coefficient plane for the bit-extraction witness: coefficient
`1` at block (0,0), `-1` elsewhere. -/
def channel0 : YImage := fun s => if s = ((0, 0, 0, 0) : Site) then 1 else -1

/-- Two sites for the bit-extraction witness. -/
def locs0 : List Site := [(0, 0, 0, 0), (1, 0, 0, 0)]

/-! ## Helper lemmas: bit codec -/

theorem byte_to_bits_mem_01 (b : Nat) : ∀ x ∈ byte_to_bits b, x = 0 ∨ x = 1 := by
  intro x hx
  simp only [byte_to_bits, List.mem_cons, List.not_mem_nil, or_false] at hx
  rcases hx with h | h | h | h | h | h | h | h <;> subst h <;> omega

theorem bytes_to_bits_mem_01 (bs : List Nat) :
    ∀ x ∈ bytes_to_bits bs, x = 0 ∨ x = 1 := by
  induction bs with
  | nil => intro x hx; simp [bytes_to_bits] at hx
  | cons b bs ih =>
      intro x hx
      simp only [bytes_to_bits, List.mem_append] at hx
      rcases hx with h | h
      · exact byte_to_bits_mem_01 b x h
      · exact ih x h

theorem length_bytes_to_bits (bs : List Nat) :
    (bytes_to_bits bs).length = 8 * bs.length := by
  induction bs with
  | nil => simp [bytes_to_bits]
  | cons b bs ih => simp [bytes_to_bits, byte_to_bits, ih]; ring

theorem bits_to_bytes_byte (b : Nat) (hb : b < 256) (rest : List Nat) :
    bits_to_bytes (byte_to_bits b ++ rest) = b :: bits_to_bytes rest := by
  simp only [byte_to_bits, List.cons_append, List.nil_append, bits_to_bytes]
  congr 1
  omega

theorem bits_to_bytes_bytes_to_bits (bs : List Nat) (hb : ∀ b ∈ bs, b < 256) :
    bits_to_bytes (bytes_to_bits bs) = bs := by
  induction bs with
  | nil => rfl
  | cons b rest ih =>
      have hb0 : b < 256 := hb b (List.mem_cons_self b rest)
      have : bytes_to_bits (b :: rest) = byte_to_bits b ++ bytes_to_bits rest := rfl
      rw [this, bits_to_bytes_byte b hb0, ih (fun x hx => hb x (List.mem_cons_of_mem b hx))]

theorem bits_to_bytes_append_bytes (bs : List Nat) (hb : ∀ b ∈ bs, b < 256)
    (r : List Nat) :
    bits_to_bytes (bytes_to_bits bs ++ r) = bs ++ bits_to_bytes r := by
  induction bs with
  | nil => rfl
  | cons b rest ih =>
      have hb0 : b < 256 := hb b (List.mem_cons_self b rest)
      have h1 : bytes_to_bits (b :: rest) ++ r
          = byte_to_bits b ++ (bytes_to_bits rest ++ r) := by
        simp [bytes_to_bits]
      rw [h1, bits_to_bytes_byte b hb0,
        ih (fun x hx => hb x (List.mem_cons_of_mem b hx))]
      rfl

theorem bits_to_bytes_replicate_zero (k : Nat) :
    bits_to_bytes (List.replicate (8 * k) 0) = List.replicate k 0 := by
  induction k with
  | zero => rfl
  | succ n ih =>
      have h : 8 * (n + 1) = 8 + 8 * n := by ring
      rw [h, List.replicate_add]
      show bits_to_bytes (0 :: 0 :: 0 :: 0 :: 0 :: 0 :: 0 :: 0 ::
        List.replicate (8 * n) 0) = _
      rw [show (List.replicate (n + 1) 0 : List Nat) = 0 :: List.replicate n 0 from rfl]
      simp only [bits_to_bytes, ih]

/-! ## Helper lemmas: crypto -/

theorem keystream_lt (key : List Nat) (i : Nat) : keystream key i < 256 :=
  Nat.mod_lt _ (by omega)

theorem dec_enc_from (key : List Nat) (ps : List Nat) :
    ∀ i, (∀ p ∈ ps, p < 256) → dec_from key i (enc_from key i ps) = ps := by
  induction ps with
  | nil => intro i _; rfl
  | cons p rest ih =>
      intro i hp
      have h0 : p < 256 := hp p (List.mem_cons_self p rest)
      have hk : keystream key i < 256 := keystream_lt key i
      simp only [enc_from, dec_from, List.cons.injEq]
      constructor
      · omega
      · exact ih (i + 1) (fun x hx => hp x (List.mem_cons_of_mem p hx))

theorem length_enc_from (key : List Nat) (ps : List Nat) :
    ∀ i, (enc_from key i ps).length = ps.length := by
  induction ps with
  | nil => intro i; rfl
  | cons p rest ih => intro i; simp [enc_from, ih]

theorem enc_from_mem_lt (key : List Nat) (ps : List Nat) :
    ∀ i, ∀ c ∈ enc_from key i ps, c < 256 := by
  induction ps with
  | nil => intro i c hc; simp [enc_from] at hc
  | cons p rest ih =>
      intro i c hc
      simp only [enc_from, List.mem_cons] at hc
      rcases hc with h | h
      · subst h; exact Nat.mod_lt _ (by omega)
      · exact ih (i + 1) c h

theorem length_tag_of (key ct : List Nat) : (tag_of key ct).length = 32 := by
  simp [tag_of]

theorem tag_of_mem_lt (key ct : List Nat) : ∀ b ∈ tag_of key ct, b < 256 := by
  intro b hb
  simp only [tag_of, List.mem_cons, List.mem_replicate] at hb
  rcases hb with h | h | ⟨-, h⟩ <;> subst h <;> exact Nat.mod_lt _ (by omega)

theorem crypto_decrypt_encrypt (key pt : List Nat) (hp : ∀ p ∈ pt, p < 256) :
    crypto_decrypt key (crypto_encrypt key pt).1 (crypto_encrypt key pt).2
      = some pt := by
  show crypto_decrypt key (enc_from key 0 pt) (tag_of key (enc_from key 0 pt)) = some pt
  rw [crypto_decrypt, if_pos rfl, dec_enc_from key pt 0 hp]

theorem tag_of_ne_replicate_zero (key ct : List Nat) :
    tag_of key ct ≠ List.replicate 32 0 := by
  intro h
  rw [show (List.replicate 32 0 : List Nat) = 0 :: 0 :: List.replicate 30 0 from rfl,
    tag_of] at h
  have h1 : (key_sum key + ct_fold ct) % 256 = 0 := (List.cons.injEq _ _ _ _).mp h |>.1
  have h2 : ((key_sum key + ct_fold ct) % 256 + 1) % 256 = 0 := by
    have := (List.cons.injEq _ _ _ _).mp ((List.cons.injEq _ _ _ _).mp h |>.2)
    exact this.1
  omega

/-! ## Helper lemmas: error correction -/

theorem ecc_parity_mem_lt (K : Nat) (xs : List Nat) :
    ∀ b ∈ ecc_parity K xs, b < 256 := by
  intro b hb
  rw [ecc_parity, List.mem_replicate] at hb
  rcases hb with ⟨-, h⟩
  subst h
  exact Nat.mod_lt _ (by omega)

theorem length_ecc_encode (K : Nat) (xs : List Nat) :
    (ecc_encode K xs).length = xs.length + K := by
  simp [ecc_encode, ecc_parity]

theorem ecc_decode_encode (K : Nat) (xs : List Nat) :
    ecc_decode K (ecc_encode K xs) = some (xs, 0) := by
  have hlen : (ecc_encode K xs).length = xs.length + K := length_ecc_encode K xs
  have hk : K ≤ (ecc_encode K xs).length := by omega
  have hsub : (ecc_encode K xs).length - K = xs.length := by omega
  rw [ecc_decode, if_pos hk, hsub]
  simp only [ecc_encode]
  rw [List.take_left, List.drop_left, if_pos rfl]

/-! ## Helper lemmas: JSON -/

theorem qc_bne_of_ne {c : Char} (h : c ≠ qc) : (c != qc) = true := by
  simpa using h

theorem takeWhile_bne_append (k rest : List Char) (hk : qc ∉ k) :
    (k ++ qc :: rest).takeWhile (fun x => x != qc) = k := by
  induction k with
  | nil => simp [List.takeWhile]
  | cons c cs ih =>
      have hc : (c != qc) = true :=
        qc_bne_of_ne (fun h => hk (h ▸ List.mem_cons_self c cs))
      have hcs : qc ∉ cs := fun h => hk (List.mem_cons_of_mem c h)
      simp [List.takeWhile_cons, hc, ih hcs]

theorem dropWhile_bne_append (k rest : List Char) (hk : qc ∉ k) :
    (k ++ qc :: rest).dropWhile (fun x => x != qc) = qc :: rest := by
  induction k with
  | nil => simp [List.dropWhile]
  | cons c cs ih =>
      have hc : (c != qc) = true :=
        qc_bne_of_ne (fun h => hk (h ▸ List.mem_cons_self c cs))
      have hcs : qc ∉ cs := fun h => hk (List.mem_cons_of_mem c h)
      simp [List.dropWhile_cons, hc, ih hcs]

theorem read_quoted_render (k rest : List Char) (hk : qc ∉ k) :
    read_quoted (qc :: k ++ qc :: rest) = some (k, rest) := by
  show (if qc = qc then
      match (k ++ qc :: rest).dropWhile (fun x => x != qc) with
      | d :: rest' =>
          if d = qc then some ((k ++ qc :: rest).takeWhile (fun x => x != qc), rest')
          else none
      | [] => none
    else none) = some (k, rest)
  rw [if_pos rfl, dropWhile_bne_append k rest hk]
  show (if qc = qc then
      some ((k ++ qc :: rest).takeWhile (fun x => x != qc), rest) else none)
    = some (k, rest)
  rw [if_pos rfl, takeWhile_bne_append k rest hk]

theorem read_pair_render (p : List Char × List Char) (rest : List Char)
    (hk : qc ∉ p.1) (hv : qc ∉ p.2) :
    read_pair (render_field p ++ rest) = some (p, rest) := by
  have h1 : render_field p ++ rest
      = qc :: p.1 ++ qc :: (cl :: qc :: p.2 ++ [qc] ++ rest) := by
    simp [render_field]
  rw [read_pair, h1, read_quoted_render p.1 _ hk]
  have h2 : cl :: qc :: p.2 ++ [qc] ++ rest = cl :: (qc :: p.2 ++ qc :: rest) := by
    simp
  rw [h2]
  show (if cl = cl then _ else none) = _
  rw [if_pos rfl, read_quoted_render p.2 rest hv]

theorem rb_ne_cm : rb ≠ cm := by decide

theorem read_pairs_dumps_body (fs : Fields) (hne : fs ≠ [])
    (hq : ∀ p ∈ fs, qc ∉ p.1 ∧ qc ∉ p.2) :
    ∀ fuel, fs.length ≤ fuel →
      read_pairs fuel (dumps_body fs ++ [rb]) = some (fs, [rb]) := by
  induction fs with
  | nil => exact absurd rfl hne
  | cons p ps ih =>
      intro fuel hfuel
      obtain ⟨hk, hv⟩ := hq p (List.mem_cons_self p ps)
      obtain ⟨fuel', rfl⟩ : ∃ f, fuel = f + 1 := by
        rcases fuel with _ | f
        · simp at hfuel
        · exact ⟨f, rfl⟩
      cases ps with
      | nil =>
          rw [show dumps_body [p] = render_field p from rfl, read_pairs,
            read_pair_render p [rb] hk hv]
          simp only [if_neg rb_ne_cm]
      | cons p2 ps2 =>
          have hbody : dumps_body (p :: p2 :: ps2)
              = render_field p ++ cm :: dumps_body (p2 :: ps2) := rfl
          rw [hbody, read_pairs]
          have hassoc : (render_field p ++ cm :: dumps_body (p2 :: ps2)) ++ [rb]
              = render_field p ++ (cm :: (dumps_body (p2 :: ps2) ++ [rb])) := by
            simp
          rw [hassoc, read_pair_render p _ hk hv]
          show (if cm = cm then
              match read_pairs fuel' (dumps_body (p2 :: ps2) ++ [rb]) with
              | some (ps', r3) => some (p :: ps', r3)
              | none => none
            else some ([p], cm :: (dumps_body (p2 :: ps2) ++ [rb])))
            = some (p :: p2 :: ps2, [rb])
          rw [if_pos rfl,
            ih (by simp) (fun x hx => hq x (List.mem_cons_of_mem p hx)) fuel'
              (by simp at hfuel ⊢; omega)]

theorem length_dumps_body_ge (fs : Fields) :
    fs.length ≤ (dumps_body fs).length := by
  induction fs with
  | nil => simp
  | cons p ps ih =>
      cases ps with
      | nil => simp [dumps_body, render_field]
      | cons p2 ps2 =>
          have : dumps_body (p :: p2 :: ps2)
              = render_field p ++ cm :: dumps_body (p2 :: ps2) := rfl
          rw [this]
          simp only [List.length_append, List.length_cons]
          have hr : 1 ≤ (render_field p).length := by simp [render_field]
          simp at ih ⊢
          omega

theorem lb_eq_lb : lb = lb := rfl

theorem loads_dumps (fs : Fields) (hq : ∀ p ∈ fs, qc ∉ p.1 ∧ qc ∉ p.2) :
    loads (dumps fs) = some fs := by
  cases fs with
  | nil => rfl
  | cons p ps =>
      have hne : dumps_body (p :: ps) ++ [rb] ≠ [rb] := by
        intro h
        have := congrArg List.length h
        simp only [List.length_append, List.length_cons, List.length_nil] at this
        have h1 : 1 ≤ (dumps_body (p :: ps)).length := by
          have := length_dumps_body_ge (p :: ps)
          simp at this; omega
        omega
      have hrp := read_pairs_dumps_body (p :: ps) (by simp) hq
        ((dumps_body (p :: ps) ++ [rb]).length)
        (le_trans (length_dumps_body_ge (p :: ps)) (by simp))
      show (if lb = lb then
          if dumps_body (p :: ps) ++ [rb] = [rb] then some []
          else
            match read_pairs (dumps_body (p :: ps) ++ [rb]).length
                (dumps_body (p :: ps) ++ [rb]) with
            | some (ps', r) => if r = [rb] then some ps' else none
            | none => none
        else none) = some (p :: ps)
      rw [if_pos rfl, if_neg hne, hrp]
      show (if ([rb] : List Char) = [rb] then some (p :: ps) else none) = some (p :: ps)
      rw [if_pos rfl]

/-! ## Helper lemmas: dumps character inventory -/

theorem mem_render_field (c : Char) (p : List Char × List Char)
    (hc : c ∈ render_field p) :
    c = qc ∨ c = cl ∨ c ∈ p.1 ∨ c ∈ p.2 := by
  simp [render_field] at hc
  tauto

theorem mem_dumps_body (c : Char) (fs : Fields) (hc : c ∈ dumps_body fs) :
    c = qc ∨ c = cl ∨ c = cm ∨ ∃ p ∈ fs, c ∈ p.1 ∨ c ∈ p.2 := by
  induction fs with
  | nil => simp [dumps_body] at hc
  | cons p ps ih =>
      cases ps with
      | nil =>
          rcases mem_render_field c p hc with h | h | h | h
          · tauto
          · tauto
          · exact Or.inr (Or.inr (Or.inr ⟨p, by simp, Or.inl h⟩))
          · exact Or.inr (Or.inr (Or.inr ⟨p, by simp, Or.inr h⟩))
      | cons p2 ps2 =>
          have hsplit : dumps_body (p :: p2 :: ps2)
              = render_field p ++ cm :: dumps_body (p2 :: ps2) := rfl
          rw [hsplit] at hc
          simp only [List.mem_append, List.mem_cons] at hc
          rcases hc with h | h | h
          · rcases mem_render_field c p h with h' | h' | h' | h'
            · tauto
            · tauto
            · exact Or.inr (Or.inr (Or.inr ⟨p, by simp, Or.inl h'⟩))
            · exact Or.inr (Or.inr (Or.inr ⟨p, by simp, Or.inr h'⟩))
          · tauto
          · rcases ih h with h' | h' | h' | ⟨x, hx, h'⟩
            · tauto
            · tauto
            · tauto
            · exact Or.inr (Or.inr (Or.inr ⟨x, List.mem_cons_of_mem p hx, h'⟩))

theorem mem_dumps (c : Char) (fs : Fields) (hc : c ∈ dumps fs) :
    c = lb ∨ c = rb ∨ c = qc ∨ c = cl ∨ c = cm ∨ ∃ p ∈ fs, c ∈ p.1 ∨ c ∈ p.2 := by
  rw [dumps] at hc
  rcases List.mem_cons.mp hc with h | h
  · exact Or.inl h
  · rcases List.mem_append.mp h with h2 | h2
    · rcases mem_dumps_body c fs h2 with h' | h' | h' | h'
      · exact Or.inr (Or.inr (Or.inl h'))
      · exact Or.inr (Or.inr (Or.inr (Or.inl h')))
      · exact Or.inr (Or.inr (Or.inr (Or.inr (Or.inl h'))))
      · exact Or.inr (Or.inr (Or.inr (Or.inr (Or.inr h'))))
    · exact Or.inr (Or.inl (by simpa using h2))

theorem bytes_to_chars_utf8 (cs : List Char) :
    bytes_to_chars (utf8_bytes cs) = cs := by
  simp only [bytes_to_chars, utf8_bytes, List.map_map]
  conv_rhs => rw [← List.map_id cs]
  exact List.map_congr_left fun c _ => Char.ofNat_toNat c

/-! ## Helper lemmas: sites -/

theorem nodup_mid_freq_coefs : mid_freq_coefs.Nodup := by decide

theorem nodup_all_sites (h w : Nat) : (all_sites h w).Nodup :=
  List.Nodup.product (List.nodup_range _)
    (List.Nodup.product (List.nodup_range _) nodup_mid_freq_coefs)

theorem length_all_sites (h w : Nat) :
    (all_sites h w).length = h / 8 * (w / 8) * 15 := by
  rw [all_sites, List.length_product, List.length_product]
  simp [mid_freq_coefs, Nat.mul_assoc]

theorem select_ignores_saliency (h w n : Nat) (s1 s2 : Option Saliency) :
    select_embedding_locations h w n s1 = select_embedding_locations h w n s2 := rfl

theorem length_select (h w n : Nat) (sal : Option Saliency)
    (hn : n ≤ h / 8 * (w / 8) * 15) :
    (select_embedding_locations h w n sal).length = n := by
  rw [select_embedding_locations, List.length_take, length_all_sites]
  omega

theorem nodup_select (h w n : Nat) (sal : Option Saliency) :
    (select_embedding_locations h w n sal).Nodup :=
  (List.take_sublist n (all_sites h w)).nodup (nodup_all_sites h w)

/-! ## Helper lemmas: DCT codec roundtrip -/

theorem extract_bits_congr (f g : YImage) (locs : List Site)
    (h : ∀ s ∈ locs, f s = g s) :
    extract_bits_from_dct f locs = extract_bits_from_dct g locs :=
  List.map_congr_left fun s hs => by rw [h s hs]

theorem lookup_zip_none (sites : List Site) (bits : List Nat) (s : Site)
    (hs : s ∉ sites) : (sites.zip bits).lookup s = none := by
  induction sites generalizing bits with
  | nil => rfl
  | cons x xs ih =>
      cases bits with
      | nil => rfl
      | cons b bs =>
          have hne : s ≠ x := fun h => hs (h ▸ List.mem_cons_self x xs)
          show List.lookup s ((x, b) :: xs.zip bs) = none
          rw [List.lookup_cons]
          have : (s == x) = false := beq_eq_false_iff_ne.mpr hne
          rw [this]
          exact ih bs (fun h => hs (List.mem_cons_of_mem x h))

theorem core_embed_plane_not_mem (img : YImage) (sites : List Site)
    (bits : List Nat) (strength : ℚ) (s : Site) (hs : s ∉ sites) :
    core_embed_plane img sites bits strength s = img s := by
  rw [core_embed_plane, lookup_zip_none sites bits s hs]

theorem extract_embed_roundtrip (img : YImage) (sites : List Site)
    (bits : List Nat) (strength : ℚ) (hnd : sites.Nodup)
    (hlen : bits.length = sites.length) (hs : 0 < strength)
    (hb : ∀ b ∈ bits, b = 0 ∨ b = 1) :
    extract_bits_from_dct (core_embed_plane img sites bits strength) sites
      = bits := by
  induction sites generalizing bits img with
  | nil =>
      cases bits with
      | nil => rfl
      | cons b bs => simp at hlen
  | cons x xs ih =>
      cases bits with
      | nil => simp at hlen
      | cons b bs =>
          have hx : x ∉ xs := (List.nodup_cons.mp hnd).1
          have hnd' : xs.Nodup := (List.nodup_cons.mp hnd).2
          have hlen' : bs.length = xs.length := by simpa using hlen
          have hb' : ∀ y ∈ bs, y = 0 ∨ y = 1 :=
            fun y hy => hb y (List.mem_cons_of_mem b hy)
          have hhead :
              core_embed_plane img (x :: xs) (b :: bs) strength x
                = if b = 1 then strength else -strength := by
            rw [core_embed_plane]
            show (match List.lookup x ((x, b) :: xs.zip bs) with
              | some v => if v = 1 then strength else -strength
              | none => img x) = _
            rw [List.lookup_cons]
            simp
          have htail : extract_bits_from_dct
              (core_embed_plane img (x :: xs) (b :: bs) strength) xs
                = extract_bits_from_dct (core_embed_plane img xs bs strength) xs := by
            apply extract_bits_congr
            intro s hsx
            have hne : s ≠ x := fun h => hx (h ▸ hsx)
            rw [core_embed_plane, core_embed_plane]
            show (match List.lookup s ((x, b) :: xs.zip bs) with
              | some v => if v = 1 then strength else -strength
              | none => img s) = _
            rw [List.lookup_cons]
            have : (s == x) = false := beq_eq_false_iff_ne.mpr hne
            rw [this]
          show (if 0 < core_embed_plane img (x :: xs) (b :: bs) strength x
              then 1 else 0)
            :: extract_bits_from_dct
                (core_embed_plane img (x :: xs) (b :: bs) strength) xs
            = b :: bs
          rw [hhead, htail, ih img bs hnd' hlen' hb']
          rcases hb b (List.mem_cons_self b bs) with h0 | h1
          · subst h0
            have h01 : (if (0 : ℕ) = 1 then strength else -strength) = -strength :=
              if_neg (by decide)
            rw [h01, if_neg (show ¬ (0 : ℚ) < -strength by linarith)]
          · subst h1
            rw [if_pos rfl, if_pos hs]

/-! ## Helper lemmas: detector loop and ladder -/

theorem build_result_ne_not_detected (p : Fields) :
    build_result p ≠ not_detected_result := by
  intro h
  have := congrArg DetectResult.detected h
  simp [build_result, not_detected_result] at this

theorem detect_loop_eq_findSome (trial : Nat → Option Fields) (l : List Nat) :
    detect_loop trial l =
      match l.findSome? trial with
      | some p => build_result p
      | none => not_detected_result := by
  induction l with
  | nil => rfl
  | cons S rest ih =>
      cases h : trial S <;> simp [detect_loop, List.findSome?_cons, h, ih]

theorem detect_loop_all_none (trial : Nat → Option Fields) (l : List Nat)
    (h : ∀ S ∈ l, trial S = none) : detect_loop trial l = not_detected_result := by
  induction l with
  | nil => rfl
  | cons S rest ih =>
      rw [detect_loop, h S (List.mem_cons_self S rest)]
      exact ih fun x hx => h x (List.mem_cons_of_mem S hx)

theorem detect_loop_first (trial : Nat → Option Fields) (l : List Nat)
    (S : Nat) (p : Fields) (hsort : l.Pairwise (· < ·)) (hmem : S ∈ l)
    (hS : trial S = some p)
    (hpre : ∀ S' ∈ l, S' < S → trial S' = none) :
    detect_loop trial l = build_result p := by
  induction l with
  | nil => simp at hmem
  | cons x rest ih =>
      rcases List.mem_cons.mp hmem with hx | hx
      · subst hx
        rw [detect_loop, hS]
      · have hxlt : x < S := (List.pairwise_cons.mp hsort).1 S hx
        rw [detect_loop, hpre x (List.mem_cons_self x rest) hxlt]
        exact ih (List.pairwise_cons.mp hsort).2 hx
          (fun S' hS' hlt => hpre S' (List.mem_cons_of_mem x hS') hlt)

theorem detect_loop_detected (trial : Nat → Option Fields) (l : List Nat) :
    (detect_loop trial l).detected = true ↔ ∃ S ∈ l, (trial S).isSome = true := by
  induction l with
  | nil => simp [detect_loop, not_detected_result]
  | cons x rest ih =>
      cases h : trial x with
      | some p => simp [detect_loop, h, build_result]
      | none =>
          rw [detect_loop, h, ih]
          constructor
          · rintro ⟨S, hS, hsome⟩
            exact ⟨S, List.mem_cons_of_mem x hS, hsome⟩
          · rintro ⟨S, hS, hsome⟩
            rcases List.mem_cons.mp hS with rfl | hS'
            · rw [h] at hsome; simp at hsome
            · exact ⟨S, hS', hsome⟩

set_option maxRecDepth 40000

set_option maxHeartbeats 1000000

theorem ladder_sorted : embedded_sizes_to_try.Pairwise (· < ·) := by decide

theorem ladder_min : ∀ S ∈ embedded_sizes_to_try, 100 ≤ S := by decide

theorem ladder_gap : ∀ S ∈ embedded_sizes_to_try, S ≤ 120 ∨ 124 ≤ S := by decide

/-! ## Helper lemmas: pipeline roundtrip -/

theorem structural_chars_lt256 :
    lb.toNat < 256 ∧ rb.toNat < 256 ∧ qc.toNat < 256 ∧ cl.toNat < 256 ∧
      cm.toNat < 256 := by decide

theorem dumps_chars_lt256 (fs : Fields)
    (hb : ∀ p ∈ fs, (∀ c ∈ p.1, c.toNat < 256) ∧ ∀ c ∈ p.2, c.toNat < 256) :
    ∀ c ∈ dumps fs, c.toNat < 256 := by
  intro c hc
  rcases mem_dumps c fs hc with h | h | h | h | h | ⟨p, hp, h⟩
  · exact h ▸ structural_chars_lt256.1
  · exact h ▸ structural_chars_lt256.2.1
  · exact h ▸ structural_chars_lt256.2.2.1
  · exact h ▸ structural_chars_lt256.2.2.2.1
  · exact h ▸ structural_chars_lt256.2.2.2.2
  · rcases h with h | h
    · exact (hb p hp).1 c h
    · exact (hb p hp).2 c h

theorem embed_data_bytes_lt256 (fs : Fields) (key : List Nat) (eccOn : Bool)
    (K : Nat) : ∀ b ∈ embed_data_bytes fs key eccOn K, b < 256 := by
  intro b hb
  rw [embed_data_bytes] at hb
  rcases List.mem_append.mp hb with h | h
  · exact enc_from_mem_lt key _ 0 b h
  · exact tag_of_mem_lt key _ b h

theorem decode_pipeline_eq (key : List Nat) (eccOn : Bool) (K : Nat)
    (d : List Nat) :
    decode_pipeline key eccOn K d
      = (match crypto_decrypt key (d.take (d.length - 32))
            (d.drop (d.length - 32)) with
        | none => none
        | some dec =>
            match (if eccOn then (ecc_decode K dec).map (fun x => x.1)
                else some dec) with
            | none => none
            | some plain => loads (bytes_to_chars plain)) := rfl

theorem decode_pipeline_split (key : List Nat) (eccOn : Bool) (K : Nat)
    (ct tag : List Nat) (htag : tag.length = 32) :
    decode_pipeline key eccOn K (ct ++ tag)
      = (match crypto_decrypt key ct tag with
        | none => none
        | some dec =>
            match (if eccOn then (ecc_decode K dec).map (fun x => x.1)
                else some dec) with
            | none => none
            | some plain => loads (bytes_to_chars plain)) := by
  have hsub : (ct ++ tag).length - 32 = ct.length := by
    rw [List.length_append, htag]
    omega
  rw [decode_pipeline_eq, hsub, List.take_left, List.drop_left]

theorem decode_pipeline_encrypt (key rs : List Nat) (eccOn : Bool) (K : Nat)
    (hrs : ∀ x ∈ rs, x < 256) :
    decode_pipeline key eccOn K
        (enc_from key 0 rs ++ tag_of key (enc_from key 0 rs))
      = (match (if eccOn then (ecc_decode K rs).map (fun x => x.1)
            else some rs) with
        | none => none
        | some plain => loads (bytes_to_chars plain)) := by
  have hdec : crypto_decrypt key (enc_from key 0 rs)
      (tag_of key (enc_from key 0 rs)) = some rs := by
    have := crypto_decrypt_encrypt key rs hrs
    rwa [crypto_encrypt] at this
  rw [decode_pipeline_split key eccOn K (enc_from key 0 rs)
    (tag_of key (enc_from key 0 rs)) (length_tag_of key _), hdec]

theorem decode_pipeline_embed (fs : Fields) (key : List Nat) (eccOn : Bool)
    (K : Nat) (hq : ∀ p ∈ fs, qc ∉ p.1 ∧ qc ∉ p.2)
    (hb : ∀ p ∈ fs, (∀ c ∈ p.1, c.toNat < 256) ∧ ∀ c ∈ p.2, c.toNat < 256) :
    decode_pipeline key eccOn K (embed_data_bytes fs key eccOn K) = some fs := by
  have hpt : ∀ x ∈ utf8_bytes (dumps fs), x < 256 := by
    intro x hx
    rw [utf8_bytes] at hx
    rcases List.mem_map.mp hx with ⟨c, hc, rfl⟩
    exact dumps_chars_lt256 fs hb c hc
  cases eccOn with
  | false =>
      have hdata : embed_data_bytes fs key false K
          = enc_from key 0 (utf8_bytes (dumps fs))
            ++ tag_of key (enc_from key 0 (utf8_bytes (dumps fs))) := rfl
      rw [hdata, decode_pipeline_encrypt key _ false K hpt]
      show loads (bytes_to_chars (utf8_bytes (dumps fs))) = some fs
      rw [bytes_to_chars_utf8]
      exact loads_dumps fs hq
  | true =>
      have hrs : ∀ x ∈ ecc_encode K (utf8_bytes (dumps fs)), x < 256 := by
        intro x hx
        rw [ecc_encode] at hx
        rcases List.mem_append.mp hx with h | h
        · exact hpt x h
        · exact ecc_parity_mem_lt K _ x h
      have hdata : embed_data_bytes fs key true K
          = enc_from key 0 (ecc_encode K (utf8_bytes (dumps fs)))
            ++ tag_of key (enc_from key 0 (ecc_encode K (utf8_bytes (dumps fs))))
          := rfl
      rw [hdata, decode_pipeline_encrypt key _ true K hrs]
      show (match (ecc_decode K (ecc_encode K (utf8_bytes (dumps fs)))).map
          (fun x => x.1) with
        | none => none
        | some plain => loads (bytes_to_chars plain)) = some fs
      rw [ecc_decode_encode]
      show loads (bytes_to_chars (utf8_bytes (dumps fs))) = some fs
      rw [bytes_to_chars_utf8]
      exact loads_dumps fs hq

/-! ## Helper lemmas: embed and trial correctness -/

theorem trial_at_eq (img : YImage) (h w : Nat) (key : List Nat)
    (cfg : TruthMarkConfig) (S : Nat) :
    trial_at img h w key cfg S
      = if S * 8 > h / 8 * (w / 8) * 15 then none
        else
          if (bits_to_bytes (extract_bits_from_dct img
              ((select_embedding_locations h w (S * 8) none).take (S * 8)))).length
              < 32 then none
          else
            decode_pipeline key cfg.use_error_correction cfg.get_ecc_symbols
              (bits_to_bytes (extract_bits_from_dct img
                ((select_embedding_locations h w (S * 8) none).take (S * 8)))) :=
  rfl

theorem sdk_embed_eq (img : YImage) (h w : Nat) (fs : Fields) (key : List Nat)
    (cfg : TruthMarkConfig) (psnrOf : ℚ → Option ℚ) :
    sdk_embed img h w fs key cfg psnrOf
      = if (bytes_to_bits (embed_data_bytes fs key cfg.use_error_correction
            cfg.get_ecc_symbols)).length > h / 8 * (w / 8) * 15 then none
        else some (watermarked_plane img h w fs key cfg, cfg.strength) :=
  rfl

theorem sdk_embed_some (img : YImage) (h w : Nat) (fs : Fields) (key : List Nat)
    (cfg : TruthMarkConfig) (psnrOf : ℚ → Option ℚ)
    (hcap : embed_total_size fs key cfg * 8 ≤ h / 8 * (w / 8) * 15) :
    sdk_embed img h w fs key cfg psnrOf
      = some (watermarked_plane img h w fs key cfg, cfg.strength) := by
  rw [sdk_embed_eq]
  have hcap' : (embed_data_bytes fs key cfg.use_error_correction
      cfg.get_ecc_symbols).length * 8 ≤ h / 8 * (w / 8) * 15 := hcap
  rw [if_neg (by rw [length_bytes_to_bits]; omega)]

theorem watermarked_plane_eq (img : YImage) (h w : Nat) (fs : Fields)
    (key : List Nat) (cfg : TruthMarkConfig)
    (hlen : (bytes_to_bits (embed_data_bytes fs key cfg.use_error_correction
      cfg.get_ecc_symbols)).length
        = embed_total_size fs key cfg * 8) :
    watermarked_plane img h w fs key cfg
      = core_embed_plane img
          ((all_sites h w).take (embed_total_size fs key cfg * 8))
          (bytes_to_bits (embed_data_bytes fs key cfg.use_error_correction
            cfg.get_ecc_symbols))
          cfg.strength := by
  rw [watermarked_plane]
  rw [hlen]
  rfl

theorem bits_length_eq_S8 (fs : Fields) (key : List Nat)
    (cfg : TruthMarkConfig) :
    (bytes_to_bits (embed_data_bytes fs key cfg.use_error_correction
      cfg.get_ecc_symbols)).length = embed_total_size fs key cfg * 8 := by
  rw [length_bytes_to_bits]
  have h : embed_total_size fs key cfg
      = (embed_data_bytes fs key cfg.use_error_correction
          cfg.get_ecc_symbols).length := rfl
  omega

theorem trial_at_embed (img : YImage) (h w : Nat) (fs : Fields) (key : List Nat)
    (cfg : TruthMarkConfig)
    (hq : ∀ p ∈ fs, qc ∉ p.1 ∧ qc ∉ p.2)
    (hb : ∀ p ∈ fs, (∀ c ∈ p.1, c.toNat < 256) ∧ ∀ c ∈ p.2, c.toNat < 256)
    (hstr : 0 < cfg.strength)
    (hcap : embed_total_size fs key cfg * 8 ≤ h / 8 * (w / 8) * 15)
    (hmin : 32 ≤ embed_total_size fs key cfg) :
    trial_at (watermarked_plane img h w fs key cfg) h w key cfg
      (embed_total_size fs key cfg) = some fs := by
  have hlen8 := bits_length_eq_S8 fs key cfg
  have hsites : (select_embedding_locations h w (embed_total_size fs key cfg * 8)
      none).take (embed_total_size fs key cfg * 8)
        = (all_sites h w).take (embed_total_size fs key cfg * 8) := by
    rw [select_embedding_locations, List.take_take, Nat.min_self]
  have hsiteslen : ((all_sites h w).take
      (embed_total_size fs key cfg * 8)).length
        = embed_total_size fs key cfg * 8 := by
    rw [List.length_take, length_all_sites]
    omega
  have hex : bits_to_bytes (extract_bits_from_dct
      (watermarked_plane img h w fs key cfg)
      ((select_embedding_locations h w (embed_total_size fs key cfg * 8)
        none).take (embed_total_size fs key cfg * 8)))
      = embed_data_bytes fs key cfg.use_error_correction cfg.get_ecc_symbols := by
    rw [hsites, watermarked_plane_eq img h w fs key cfg hlen8,
      extract_embed_roundtrip img _ _ cfg.strength
        ((List.take_sublist _ _).nodup (nodup_all_sites h w))
        (by rw [hlen8, hsiteslen]) hstr
        (bytes_to_bits_mem_01 _),
      bits_to_bytes_bytes_to_bits _ (embed_data_bytes_lt256 fs key _ _)]
  rw [trial_at_eq, if_neg (by omega), hex,
    if_neg (by
      show ¬ (embed_data_bytes fs key cfg.use_error_correction
        cfg.get_ecc_symbols).length < 32
      have : (embed_data_bytes fs key cfg.use_error_correction
        cfg.get_ecc_symbols).length = embed_total_size fs key cfg := rfl
      omega)]
  exact decode_pipeline_embed fs key _ _ hq hb

/-! ## Helper lemmas: extraction beyond the embedded region (used to show the
off-ladder counterexample fails every trial) -/

theorem extract_embed_beyond (img : YImage) (sites extra : List Site)
    (bits : List Nat) (strength : ℚ)
    (hnd : (sites ++ extra).Nodup)
    (hlen : bits.length = sites.length) (hs : 0 < strength)
    (hb : ∀ b ∈ bits, b = 0 ∨ b = 1) :
    extract_bits_from_dct (core_embed_plane img sites bits strength)
        (sites ++ extra)
      = bits ++ extra.map (fun s => if 0 < img s then 1 else 0) := by
  have h3 := List.nodup_append.mp hnd
  rw [extract_bits_from_dct, List.map_append]
  congr 1
  · exact extract_embed_roundtrip img sites bits strength h3.1 hlen hs hb
  · apply List.map_congr_left
    intro s hsx
    have hnot : s ∉ sites := fun hmem => h3.2.2 hmem hsx
    rw [core_embed_plane_not_mem img sites bits strength s hnot]

theorem cx_data_length : cx_data.length = 66 := by decide

theorem M64 : (64 : Nat) / 8 * (64 / 8) * 15 = 960 := by norm_num

theorem all_sites_64_length : (all_sites 64 64).length = 960 := by
  rw [length_all_sites]

theorem cx_plane_eq :
    cx_plane = core_embed_plane img_zero ((all_sites 64 64).take 528)
      (bytes_to_bits cx_data) 15 := by
  rw [cx_plane, watermarked_plane_eq img_zero 64 64 cx_fields cx_key cfg_a
    (bits_length_eq_S8 cx_fields cx_key cfg_a)]
  have h66 : embed_total_size cx_fields cx_key cfg_a = 66 := by decide
  rw [h66]
  rfl

theorem cx_trial_none (S : Nat) (h100 : 100 ≤ S) (hcap : S * 8 ≤ 960) :
    trial_at cx_plane 64 64 cx_key cfg_a S = none := by
  rw [trial_at_eq, M64, if_neg (by omega)]
  -- the trial's sites are the embedded 528 sites followed by untouched ones
  have hsites : (select_embedding_locations 64 64 (S * 8) none).take (S * 8)
      = (all_sites 64 64).take (S * 8) := by
    rw [select_embedding_locations, List.take_take, Nat.min_self]
  have hsplit : (all_sites 64 64).take (S * 8)
      = (all_sites 64 64).take 528
          ++ ((all_sites 64 64).drop 528).take (S * 8 - 528) := by
    conv_lhs => rw [show S * 8 = 528 + (S * 8 - 528) by omega]
    exact List.take_add _ _ _
  have hnd : ((all_sites 64 64).take 528
      ++ ((all_sites 64 64).drop 528).take (S * 8 - 528)).Nodup := by
    rw [← hsplit]
    exact (List.take_sublist _ _).nodup (nodup_all_sites 64 64)
  have hextra_len : (((all_sites 64 64).drop 528).take (S * 8 - 528)).length
      = S * 8 - 528 := by
    rw [List.length_take, List.length_drop, all_sites_64_length]
    omega
  have hbits_len : (bytes_to_bits cx_data).length = 528 := by
    rw [length_bytes_to_bits, cx_data_length]
  have hsites_len : ((all_sites 64 64).take 528).length = 528 := by
    rw [List.length_take, all_sites_64_length]
    omega
  have hzero_map : (((all_sites 64 64).drop 528).take (S * 8 - 528)).map
      (fun s => if 0 < img_zero s then 1 else 0)
        = List.replicate (S * 8 - 528) (0 : Nat) := by
    rw [List.eq_replicate_iff]
    refine ⟨by rw [List.length_map, hextra_len], ?_⟩
    intro b hbm
    rcases List.mem_map.mp hbm with ⟨s, -, rfl⟩
    rw [if_neg (by norm_num [img_zero])]
  have hextract : extract_bits_from_dct cx_plane
      ((select_embedding_locations 64 64 (S * 8) none).take (S * 8))
        = bytes_to_bits cx_data ++ List.replicate (S * 8 - 528) 0 := by
    rw [hsites, hsplit, cx_plane_eq,
      extract_embed_beyond img_zero _ _ _ 15 hnd
        (by rw [hbits_len, hsites_len]) (by norm_num)
        (bytes_to_bits_mem_01 _),
      hzero_map]
  have hdata' : bits_to_bytes (extract_bits_from_dct cx_plane
      ((select_embedding_locations 64 64 (S * 8) none).take (S * 8)))
        = cx_data ++ List.replicate (S - 66) 0 := by
    rw [hextract, show S * 8 - 528 = 8 * (S - 66) by omega,
      bits_to_bytes_append_bytes cx_data (embed_data_bytes_lt256 _ _ _ _) _,
      bits_to_bytes_replicate_zero]
  rw [hdata']
  have hdlen : (cx_data ++ List.replicate (S - 66) 0).length = S := by
    rw [List.length_append, cx_data_length, List.length_replicate]
    omega
  rw [if_neg (by rw [hdlen]; omega)]
  have htag : (cx_data ++ List.replicate (S - 66) 0).drop
      ((cx_data ++ List.replicate (S - 66) 0).length - 32)
        = List.replicate 32 (0 : Nat) := by
    rw [hdlen, show S - 32 = cx_data.length + (S - 98) from by
        rw [cx_data_length]; omega,
      List.drop_append, List.drop_replicate,
      show S - 66 - (S - 98) = 32 by omega]
  rw [decode_pipeline_eq, htag, crypto_decrypt,
    if_neg fun h => tag_of_ne_replicate_zero cx_key _ h.symm]

/-! ## Claim theorems -/

/-- C1 (counterexample): the round-trip claim fails as stated.  A 64x64 RGB
cover (H = W = 64, divisible by 8), an empty payload and key `[3]` under the
ECC-enabled configuration produce an embedded size of 66 bytes, which fits
the 960-bit capacity, yet `detect` with the same key and matching
`ecc_symbols` exhausts its size ladder (66 is not a ladder entry) and
returns the NotDetected result instead of the payload. -/
theorem C1_counterexample :
    sdk_embed img_zero 64 64 cx_fields cx_key cfg_a (fun _ => none)
      = some (cx_plane, 15) ∧
    embed_total_size cx_fields cx_key cfg_a * 8 ≤ 64 / 8 * (64 / 8) * 15 ∧
    detect_from cx_plane 64 64 cx_key cfg_a = not_detected_result := by
  refine ⟨sdk_embed_some img_zero 64 64 cx_fields cx_key cfg_a _ (by decide),
    by decide, ?_⟩
  rw [detect_from]
  apply detect_loop_all_none
  intro S hS
  have h100 := ladder_min S hS
  rcases ladder_gap S hS with h1 | h2
  · exact cx_trial_none S h100 (by omega)
  · rw [trial_at_eq, M64, if_pos (by omega)]

/-- C1 (amended): round-trip over a clean channel holds for every cover whose
capacity admits the payload and every key, provided additionally that the
total embedded size (ciphertext plus 32-byte tag) is one of the detector's
ladder entries and that no strictly earlier ladder entry passes the
authenticated-decryption gate on the watermarked image (the spec idealises
the second condition as certain, via the 2^-256 AEAD gate of §4.9; a
deterministic 32-byte tag cannot make it a theorem for all inputs): the
embedder succeeds and the detector returns `detected = true` with exactly
the embedded payload fields. -/
theorem C1_round_trip_amended (img : YImage) (h w : Nat) (fs : Fields)
    (key : List Nat) (cfg : TruthMarkConfig) (psnrOf : ℚ → Option ℚ)
    (hq : ∀ p ∈ fs, qc ∉ p.1 ∧ qc ∉ p.2)
    (hb : ∀ p ∈ fs, (∀ c ∈ p.1, c.toNat < 256) ∧ ∀ c ∈ p.2, c.toNat < 256)
    (hstr : 0 < cfg.strength)
    (hladder : embed_total_size fs key cfg ∈ embedded_sizes_to_try)
    (hcap : embed_total_size fs key cfg * 8 ≤ h / 8 * (w / 8) * 15)
    (hEarly : ∀ S ∈ embedded_sizes_to_try, S < embed_total_size fs key cfg →
      trial_at (watermarked_plane img h w fs key cfg) h w key cfg S = none) :
    sdk_embed img h w fs key cfg psnrOf
      = some (watermarked_plane img h w fs key cfg, cfg.strength) ∧
    detect_from (watermarked_plane img h w fs key cfg) h w key cfg
      = build_result fs := by
  refine ⟨sdk_embed_some img h w fs key cfg psnrOf hcap, ?_⟩
  have hmin : 32 ≤ embed_total_size fs key cfg := by
    have := ladder_min _ hladder
    omega
  rw [detect_from]
  exact detect_loop_first _ _ _ fs ladder_sorted hladder
    (trial_at_embed img h w fs key cfg hq hb hstr hcap hmin) hEarly

/-- C1 (witness): the amended round-trip at a concrete instance — a 64x64
flat cover, a 36-character payload whose embedded size is exactly the first
ladder entry (100 bytes), and key `[5]`. -/
theorem C1_witness :
    embed_total_size w1_fields w1_key cfg_a ∈ embedded_sizes_to_try ∧
    detect_from (watermarked_plane img_zero 64 64 w1_fields w1_key cfg_a)
      64 64 w1_key cfg_a = build_result w1_fields :=
  ⟨by decide,
    (C1_round_trip_amended img_zero 64 64 w1_fields w1_key cfg_a (fun _ => none)
      (by decide) (by decide) (by norm_num [cfg_a]) (by decide) (by decide)
      (by decide)).2⟩

/-- C2: pipeline layering.  The byte string the embedder hands to the
bit/DCT layer is exactly `ciphertext ++ tag` for
`(ciphertext, tag) = encrypt(key, ecc_encode(utf8_json(fields)))` — ECC
before encryption, the 32-byte tag appended last — and the detector's trial
pipeline (split the last 32 bytes, decrypt, ECC-decode, parse, in that
order) inverts it exactly. -/
theorem C2_pipeline_layering (fs : Fields) (key : List Nat) (K : Nat)
    (hq : ∀ p ∈ fs, qc ∉ p.1 ∧ qc ∉ p.2)
    (hb : ∀ p ∈ fs, (∀ c ∈ p.1, c.toNat < 256) ∧ ∀ c ∈ p.2, c.toNat < 256) :
    embed_data_bytes fs key true K
      = (crypto_encrypt key (ecc_encode K (utf8_bytes (dumps fs)))).1
        ++ (crypto_encrypt key (ecc_encode K (utf8_bytes (dumps fs)))).2 ∧
    decode_pipeline key true K (embed_data_bytes fs key true K) = some fs :=
  ⟨rfl, decode_pipeline_embed fs key true K hq hb⟩

/-- C2 (witness): the layering round-trip at a concrete payload and key. -/
theorem C2_witness :
    (∀ p ∈ w1_fields, qc ∉ p.1 ∧ qc ∉ p.2) ∧
    decode_pipeline w1_key true 32 (embed_data_bytes w1_fields w1_key true 32)
      = some w1_fields :=
  ⟨by decide,
    (C2_pipeline_layering w1_fields w1_key 32 (by decide) (by decide)).2⟩

/-- C3 (counterexample): the ladder claim fails as stated: 2000 is not a
member of the detector's candidate-size sequence
(`range(1000, 2000, 50)` has an exclusive upper bound; the last entry is
1950). -/
theorem C3_counterexample : 2000 ∉ embedded_sizes_to_try := by decide

/-- C3 (amended): the detector enumerates candidate total embedded sizes in
exactly the fixed strictly increasing sequence 100,104,…,496, 500,520,…,980,
1000,1050,…,1950 — which contains 500 and 1000 but not 2000 and ends at
1950 — never reordering it, and returns the (unique) first candidate whose
trial succeeds, i.e. its result is `findSome?` over that sequence. -/
theorem C3_ladder_first_success (img : YImage) (h w : Nat) (key : List Nat)
    (cfg : TruthMarkConfig) :
    detect_from img h w key cfg
      = (match embedded_sizes_to_try.findSome? (trial_at img h w key cfg) with
        | some p => build_result p
        | none => not_detected_result) ∧
    embedded_sizes_to_try.Pairwise (· < ·) ∧
    100 ∈ embedded_sizes_to_try ∧ 500 ∈ embedded_sizes_to_try ∧
    1000 ∈ embedded_sizes_to_try ∧ 2000 ∉ embedded_sizes_to_try ∧
    embedded_sizes_to_try.getLast? = some 1950 := by
  refine ⟨?_, ladder_sorted, by decide, by decide, by decide, by decide,
    by decide⟩
  rw [detect_from]
  exact detect_loop_eq_findSome _ _

/-- C4: the adaptive-strength claim is right about the intent but the code
is a slip: with `adaptive_strength` on, `_find_optimal_strength` does walk
the ladder {0.7, 0.85, 1.0, 1.15, 1.3}·base (here returning 19.5 for base 15
when the measured PSNR equals the trial strength and the target is 42), but
`embed` stores the result in `current_strength` and never passes it to the
core embedder, so the returned image is always produced with the base
strength 15. -/
theorem C4_adaptive_strength_dead_store :
    find_optimal_strength 15 42 (fun s => some s) = 39 / 2 ∧
    ((39 / 2 : ℚ) ≠ 15) ∧
    cfg_adaptive.adaptive_strength = true ∧
    cfg_adaptive.strength = 15 ∧ cfg_adaptive.target_psnr = 42 ∧
    (sdk_embed img_zero 64 64 w1_fields w1_key cfg_adaptive
        (fun s => some s)).map (fun r => r.2) = some 15 := by
  refine ⟨?_, by norm_num, rfl, rfl, rfl, ?_⟩
  · rw [find_optimal_strength, strength_ladder]
    norm_num [fos_loop, abs]
  · rw [sdk_embed_some img_zero 64 64 w1_fields w1_key cfg_adaptive _
      (by decide)]
    rfl

/-- C5 (counterexample): canonical serialization fails as stated: two field
maps with equal key-value content (permutations of each other) serialize to
different bytes, because `json.dumps` is called without `sort_keys` and
emits keys in insertion order. -/
theorem C5_counterexample :
    ([(['a'], ['x']), (['b'], ['y'])] : Fields).Perm
      [(['b'], ['y']), (['a'], ['x'])] ∧
    dumps [(['a'], ['x']), (['b'], ['y'])]
      ≠ dumps [(['b'], ['y']), (['a'], ['x'])] := by
  exact ⟨by decide, by decide⟩

/-- C5 (amended): the JSON bytes the embedder builds are compact — no
whitespace appears outside field content — but keys are emitted in the
map's insertion order, not sorted: the serialization is the order-faithful
one inverted exactly by `loads`, so equal-content maps built in different
orders may serialize differently. -/
theorem C5_compact_insertion_order (fs : Fields)
    (hws : ∀ p ∈ fs, (∀ c ∈ p.1, c ≠ ' ' ∧ c ≠ '\t' ∧ c ≠ '\n')
      ∧ ∀ c ∈ p.2, c ≠ ' ' ∧ c ≠ '\t' ∧ c ≠ '\n')
    (hq : ∀ p ∈ fs, qc ∉ p.1 ∧ qc ∉ p.2) :
    (∀ c ∈ dumps fs, c ≠ ' ' ∧ c ≠ '\t' ∧ c ≠ '\n') ∧
    loads (dumps fs) = some fs := by
  refine ⟨?_, loads_dumps fs hq⟩
  intro c hc
  rcases mem_dumps c fs hc with h | h | h | h | h | ⟨p, hp, h⟩
  · subst h; refine ⟨by decide, by decide, by decide⟩
  · subst h; refine ⟨by decide, by decide, by decide⟩
  · subst h; refine ⟨by decide, by decide, by decide⟩
  · subst h; refine ⟨by decide, by decide, by decide⟩
  · subst h; refine ⟨by decide, by decide, by decide⟩
  · rcases h with h | h
    · exact (hws p hp).1 c h
    · exact (hws p hp).2 c h

/-- C5 (witness): compactness and order-faithful round-trip at a concrete
payload. -/
theorem C5_witness :
    (∀ p ∈ w1_fields, qc ∉ p.1 ∧ qc ∉ p.2) ∧
    loads (dumps w1_fields) = some w1_fields :=
  ⟨by decide,
    (C5_compact_insertion_order w1_fields (by decide) (by decide)).2⟩

/-- C6: extractor error semantics.  Every failure of an individual ladder
trial is discarded locally (it never escapes the loop), detection succeeds
iff some ladder trial succeeds, and the NotDetected result is returned as a
value exactly when the whole ladder is exhausted without a success. -/
theorem C6_error_semantics (img : YImage) (h w : Nat) (key : List Nat)
    (cfg : TruthMarkConfig) :
    (detect_from img h w key cfg = not_detected_result ↔
      ∀ S ∈ embedded_sizes_to_try, trial_at img h w key cfg S = none) ∧
    ((detect_from img h w key cfg).detected = true ↔
      ∃ S ∈ embedded_sizes_to_try, (trial_at img h w key cfg S).isSome = true)
    := by
  have h2 := detect_loop_detected (trial_at img h w key cfg)
    embedded_sizes_to_try
  constructor
  · constructor
    · intro hend S hS
      cases htr : trial_at img h w key cfg S with
      | none => rfl
      | some p =>
          exfalso
          have hdet : (detect_from img h w key cfg).detected = true := by
            rw [detect_from]
            exact h2.mpr ⟨S, hS, by rw [htr]; rfl⟩
          rw [hend] at hdet
          simp [not_detected_result] at hdet
    · intro hall
      rw [detect_from]
      exact detect_loop_all_none _ _ hall
  · rw [detect_from]
    exact h2

/-- C6 (witness): on an 8x8 image every trial fails on capacity, so the
detector returns the NotDetected value. -/
theorem C6_witness :
    detect_from img_zero 8 8 cx_key cfg_a = not_detected_result :=
  (C6_error_semantics img_zero 8 8 cx_key cfg_a).1.mpr (by decide)

/-- C7: extraction is independent of saliency.  The detector's result is a
function of the image, the key and the config's ECC settings only: two
configurations agreeing on `use_error_correction` and `ecc_symbols` but
differing arbitrarily in saliency settings yield identical results, and the
regenerated site list does not depend on any saliency map (it is passed
`saliency_map=None` on every trial). -/
theorem C7_saliency_independence (img : YImage) (h w : Nat) (key : List Nat)
    (cfg1 cfg2 : TruthMarkConfig)
    (hecc : cfg1.use_error_correction = cfg2.use_error_correction)
    (hsym : cfg1.ecc_symbols = cfg2.ecc_symbols) :
    detect_from img h w key cfg1 = detect_from img h w key cfg2 ∧
    ∀ n sal, select_embedding_locations h w n sal
      = select_embedding_locations h w n none := by
  refine ⟨?_, fun n sal => rfl⟩
  have hg : cfg1.get_ecc_symbols = cfg2.get_ecc_symbols := hsym
  have htr : trial_at img h w key cfg1 = trial_at img h w key cfg2 := by
    funext S
    rw [trial_at_eq, trial_at_eq, hecc, hg]
  rw [detect_from, detect_from, htr]

/-- C7 (witness): two concrete configurations differing only in saliency
settings give the same detection result. -/
theorem C7_witness :
    detect_from img_zero 8 8 cx_key cfg_a = detect_from img_zero 8 8 cx_key cfg_b
    := (C7_saliency_independence img_zero 8 8 cx_key cfg_a cfg_b rfl rfl).1

/-- C8: bit extraction rule.  `_extract_bits_from_dct` returns one bit per
site, in order, and each bit is 1 iff the site's forward-DCT coefficient is
strictly positive, 0 iff it is ≤ 0 (in particular a coefficient exactly 0
yields bit 0); sign is the only threshold. -/
theorem C8_bit_extraction_rule (channel : YImage) (locations : List Site) :
    (extract_bits_from_dct channel locations).length = locations.length ∧
    ∀ p ∈ locations.zip (extract_bits_from_dct channel locations),
      (p.2 = 1 ↔ 0 < channel p.1) ∧ (p.2 = 0 ↔ channel p.1 ≤ 0) ∧
      (channel p.1 = 0 → p.2 = 0) := by
  refine ⟨List.length_map _ _, ?_⟩
  induction locations with
  | nil => intro p hp; simp [extract_bits_from_dct] at hp
  | cons l ls ih =>
      intro p hp
      rw [show extract_bits_from_dct channel (l :: ls)
          = (if 0 < channel l then 1 else 0)
            :: extract_bits_from_dct channel ls from rfl] at hp
      rcases List.mem_cons.mp hp with hph | hph
      · subst hph
        by_cases hcl : 0 < channel l
        · rw [if_pos hcl]
          exact ⟨iff_of_true rfl hcl,
            iff_of_false (by norm_num) (not_le.mpr hcl),
            fun h0 => absurd (h0 ▸ hcl) (by norm_num)⟩
        · rw [if_neg hcl]
          exact ⟨iff_of_false (by norm_num) hcl,
            iff_of_true rfl (not_lt.mp hcl), fun _ => rfl⟩
      · exact ih p hph

/-- C8 (witness): the extraction rule at a concrete plane and site list. -/
theorem C8_witness :
    (((0, 0, 0, 0) : Site), (1 : Nat)) ∈
      locs0.zip (extract_bits_from_dct channel0 locs0) ∧
    ((1 : Nat) = 1 ↔ (0 : ℚ) < channel0 (0, 0, 0, 0)) :=
  ⟨by decide,
    ((C8_bit_extraction_rule channel0 locs0).2 ((0, 0, 0, 0), 1) (by decide)).1⟩

/-- C9: when the detector was constructed without a key and no key is passed
to `detect`, it returns `detected = false`, confidence 0.0 and an error
message — the same constant result for every image, so no extraction is
attempted and no keyless "universal detection" path exists despite the
docstrings. -/
theorem C9_keyless_detection (img : YImage) (h w : Nat)
    (cfg : TruthMarkConfig) :
    detect_top none none img h w cfg = no_key_result ∧
    no_key_result.detected = false ∧ no_key_result.confidence = 0 ∧
    no_key_result.error_message
      = some "No decryption key provided. Cannot detect watermark without key."
    := ⟨rfl, rfl, rfl, rfl⟩

/-- C10: `verify_copyright` verifies iff a watermark is detected and the
lowercased expected owner occurs as a substring of the lowercased owner
string, taken as the first non-empty of the payload's `owner`, `author`,
`copyright` fields — case-insensitive substring containment, not
equality. -/
theorem C10_verify_copyright_substring (instance_key : Option (List Nat))
    (img : YImage) (h w : Nat) (expected : List Char) (key : List Nat)
    (cfg : TruthMarkConfig) :
    (verify_copyright instance_key img h w expected key cfg).verified
      = ((detect_top instance_key (some key) img h w cfg).detected
          && occurs_in (to_lower expected)
            (to_lower (owner_of
              (detect_top instance_key (some key) img h w cfg).payload))) := by
  have heq : verify_copyright instance_key img h w expected key cfg
      = if (detect_top instance_key (some key) img h w cfg).detected = false
        then { verified := false, actual_owner := [], confidence := 0 }
        else
          { verified := occurs_in (to_lower expected)
              (to_lower (owner_of
                (detect_top instance_key (some key) img h w cfg).payload)),
            actual_owner := owner_of
              (detect_top instance_key (some key) img h w cfg).payload,
            confidence :=
              (detect_top instance_key (some key) img h w cfg).confidence }
      := rfl
  rw [heq]
  cases hb : (detect_top instance_key (some key) img h w cfg).detected with
  | false => rw [if_pos rfl]; rfl
  | true =>
      rw [if_neg (by simp)]
      rw [Bool.true_and]

end TruthMark
